import Mathlib

/-!
Shallow embedding of the two-square cipher engine
(`src/twosquare/twosquare.py`) and proofs about it.

Python strings are modelled as Lean `String`s (lists of characters);
character-classification methods (`isspace`, `isdigit`, `isalpha`,
`isascii`, `isprintable`, membership in `string.ascii_uppercase` /
`string.printable`) are modelled at ASCII granularity, which is exact for
every character that can survive the validators' ASCII checks.
Table cells are `String`s, matching the source where a cell is either a
one-letter string or the merged `"IJ"` cell.
-/

namespace Twosquare

/-- The constant `string.ascii_uppercase` used by the source. -/
def ascii_uppercase : List Char := "ABCDEFGHIJKLMNOPQRSTUVWXYZ".data

/-- Python `str.isspace` restricted to ASCII text. -/
def pyIsSpace (c : Char) : Bool :=
  c = ' ' || c = '\t' || c = '\n' || c = '\r' || c.toNat = 11 || c.toNat = 12

/-- Python `str.isdigit` restricted to ASCII text. -/
def pyIsDigit (c : Char) : Bool := '0' ≤ c && c ≤ '9'

/-- Python `str.isalpha` restricted to ASCII text. -/
def pyIsAlpha (c : Char) : Bool := ('A' ≤ c && c ≤ 'Z') || ('a' ≤ c && c ≤ 'z')

/-- Python `str.isascii`. -/
def pyIsAscii (c : Char) : Bool := c.toNat < 128

/-- Python `str.isprintable`, per character, restricted to ASCII text. -/
def pyIsPrintable (c : Char) : Bool := 32 ≤ c.toNat && c.toNat ≤ 126

/-- Membership in the constant `string.printable` (ASCII printable
characters together with the five whitespace controls). -/
def pyInPrintable (c : Char) : Bool :=
  (32 ≤ c.toNat && c.toNat ≤ 126) || c = '\t' || c = '\n' || c = '\r' ||
    c.toNat = 11 || c.toNat = 12

/-- The check `character in ascii_uppercase` from the source. -/
def isUpperLetter (c : Char) : Bool := ascii_uppercase.contains c

/-- The character-scanning loop of `validate_key`: walks the (already
upper-cased) key, keeping the list `letters_in_key` of letters seen so
far; `none` models a raised `BadValueError`. -/
def keyLettersLoop : List Char → List Char → Option (List Char)
  | [], seen => some seen
  | c :: rest, seen =>
    if pyIsSpace c then none
    else if pyIsDigit c then none
    else if !(pyIsAlpha c) then none
    else if c ∈ seen then none
    else if isUpperLetter c then keyLettersLoop rest (seen ++ [c])
    else none

/-- `validate_key` from the source: non-empty, upper-cased, the character
loop must pass, the key may not contain both `I` and `J`, and may not be
longer than twenty-five characters. -/
def validate_key (key : String) : Bool :=
  if key.data.length < 1 then false
  else
    let k := key.data.map Char.toUpper
    match keyLettersLoop k [] with
    | none => false
    | some letters =>
      if 'I' ∈ letters ∧ 'J' ∈ letters then false
      else if k.length > 25 then false
      else true

/-- The I/J merge applied to a single key character in `create_table`
(`if letter == 'I' or letter == 'J': letter = 'IJ'`). -/
def mergeIJ (c : Char) : String :=
  if c = 'I' ∨ c = 'J' then "IJ" else String.singleton c

/-- The `key_as_letters` list built by `create_table`: every character of
the upper-cased key, with `I`/`J` replaced by the merged `"IJ"` cell. -/
def key_as_letters (k : List Char) : List String := k.map mergeIJ

/-- The loop of `create_table` that builds `letters_not_in_key` from the
alphabet: it appends each letter, and on reaching `'J'` removes the
previously appended `"I"` and appends `"IJ"` instead. -/
def buildAlphabetLoop : List Char → List String → List String
  | [], acc => acc
  | c :: rest, acc =>
    if c = 'J' then buildAlphabetLoop rest ((acc.erase "I") ++ ["IJ"])
    else buildAlphabetLoop rest (acc ++ [String.singleton c])

/-- The initial `letters_not_in_key` list of `create_table`: the merged
25-identity alphabet in standard order. -/
def letters_not_in_key : List String := buildAlphabetLoop ascii_uppercase []

/-- The merged alphabet written out: `A`–`H`, `"IJ"`, `K`–`Z`. -/
def alphabet25 : List String :=
  ["A", "B", "C", "D", "E", "F", "G", "H", "IJ", "K", "L", "M", "N",
   "O", "P", "Q", "R", "S", "T", "U", "V", "W", "X", "Y", "Z"]

/-- The removal loop of `create_table`: for each key letter, remove its
first occurrence from the pool if present (`letters_not_in_key.remove`). -/
def removeKeyLetters : List String → List String → List String
  | [], pool => pool
  | l :: rest, pool =>
    removeKeyLetters rest (if l ∈ pool then pool.erase l else pool)

/-- The row-filling loop of `create_table`: the reversed lists are popped
from the back, which consumes `key_as_letters ++ letters_not_in_key` in
order, five cells per row. -/
def fillRows : Nat → List String → List (List String)
  | 0, _ => []
  | n + 1, letters => letters.take 5 :: fillRows n (letters.drop 5)

/-- The stream of cells consumed by the table-filling loop of
`create_table`: the key's letter-identities first, then what is left of
the alphabet after the removal loop. -/
def tableLetters (k : List Char) : List String :=
  key_as_letters k ++ removeKeyLetters (key_as_letters k) letters_not_in_key

/-- `create_table` from the source; `none` models the `False` return on
an invalid key. -/
def create_table (key : String) : Option (List (List String)) :=
  if validate_key key then
    some (fillRows 5 (tableLetters (key.data.map Char.toUpper)))
  else none

/-- Python `row.index(letter)` guarded by `letter in row`: the first
index of the letter in a row, if any. -/
def findInRow (l : String) : List String → Option Nat
  | [] => none
  | x :: rest => if x = l then some 0 else (findInRow l rest).map (· + 1)

/-- The row scan of `_get_coordinates`, with the running `row_number`;
`(-1, -1)` is the absence sentinel of the source. -/
def findInRows (l : String) : List (List String) → Int → Int × Int
  | [], _ => (-1, -1)
  | row :: rest, n =>
    match findInRow l row with
    | some c => (n, (c : Int))
    | none => findInRows l rest (n + 1)

/-- `_get_coordinates` from the source: merge an `"I"`/`"J"` query into
`"IJ"`, then scan the rows top to bottom. -/
def get_coordinates (table : List (List String)) (letter : String) : Int × Int :=
  let l := if letter = "I" ∨ letter = "J" then "IJ" else letter
  findInRows l table 0

/-- Python `table[r][c]` for coordinates produced by `_get_coordinates`. -/
def cellAt (t : List (List String)) (r c : Int) : String :=
  (t.getD r.toNat []).getD c.toNat ""

/-- The per-digraph substitution step of `_xcrypt` (coordinate lookup,
sentinel check, and the column-swap / same-column tie-break rule);
`none` models the raised `FooBarError` on a table mismatch. -/
def substituteDigraph (t1 t2 : List (List String)) (a b : Char) :
    Option (String × String) :=
  let rc1 := get_coordinates t1 (String.singleton a)
  let rc2 := get_coordinates t2 (String.singleton b)
  if min (min rc1.1 rc2.1) (min rc1.2 rc2.2) < 0 then none
  else if rc1.2 ≠ rc2.2 then
    some (cellAt t1 rc1.1 rc2.2, cellAt t2 rc2.1 rc1.2)
  else
    some (String.singleton a, String.singleton b)

/-- The digraph loop of `_xcrypt`: substitute each digraph, apply the
decrypt-only `omit_j` replacement of `"IJ"` cells by `"I"`, and
accumulate the processed text (as its character list). -/
def processDigraphs (mode : String) (omit_j : Bool)
    (t1 t2 : List (List String)) : List (Char × Char) → Option (List Char)
  | [] => some []
  | (a, b) :: rest =>
    match substituteDigraph t1 t2 a b with
    | none => none
    | some (p1, p2) =>
      let q1 := if mode = "decrypt" ∧ omit_j = true ∧ p1 = "IJ" then "I" else p1
      let q2 := if mode = "decrypt" ∧ omit_j = true ∧ p2 = "IJ" then "I" else p2
      match processDigraphs mode omit_j t1 t2 rest with
      | none => none
      | some restChars => some (q1.data ++ q2.data ++ restChars)

/-- The digraph split of `_xcrypt`: consecutive non-overlapping pairs. -/
def toDigraphs : List Char → List (Char × Char)
  | a :: b :: rest => (a, b) :: toDigraphs rest
  | _ => []

/-- The encrypt-mode filter loop of `_xcrypt`: keep exactly the
characters of the upper-cased message that lie in `ascii_uppercase`. -/
def keepUppercase : List Char → List Char
  | [] => []
  | c :: rest =>
    if isUpperLetter c then c :: keepUppercase rest else keepUppercase rest

/-- The encrypt-mode normalization of `_xcrypt`: upper-case, filter to
ASCII letters, and append a `'Z'` when the letter count is odd. -/
def encryptNormalize (message : List Char) : List Char :=
  let filtered := keepUppercase (message.map Char.toUpper)
  if filtered.length % 2 ≠ 0 then filtered ++ ['Z'] else filtered

/-- `validate_plaintext` from the source (boolean outcome of the check
sequence: non-empty, not all-whitespace, not all-numeric, ASCII only,
printable only, contains a letter). -/
def validate_plaintext (message : String) : Bool :=
  if message.data.length = 0 then false
  else if message.data.all pyIsSpace then false
  else if message.data.all pyIsDigit then false
  else if !(message.data.all pyIsAscii) then false
  else if !(message.data.all pyInPrintable) then false
  else if !(message.data.any pyIsAlpha) then false
  else true

/-- `validate_ciphertext` from the source (boolean outcome of the
per-character check sequence: printable ASCII, no whitespace, no digits,
upper-case ASCII letters only, and at least one letter). -/
def validate_ciphertext (message : String) : Bool :=
  if message.data.length = 0 then false
  else if !(message.data.all fun c =>
      (pyIsAscii c && pyIsPrintable c) && !(pyIsSpace c) && !(pyIsDigit c)
        && isUpperLetter c) then false
  else if !(message.data.any isUpperLetter) then false
  else true

/-- `validate_message` from the source: dispatch on the mode string. -/
def validate_message (message : String) (mode : String) : Bool :=
  if mode = "plain" ∨ mode = "p" then validate_plaintext message
  else if mode = "cipher" ∨ mode = "c" then validate_ciphertext message
  else false

/-- Outcome of `_xcrypt`: a returned string, the caught-and-converted
`False` return (`fail`), or a propagated exception (`err`). -/
inductive XResult where
  | ok (text : String)
  | fail
  | err (msg : String)
deriving DecidableEq

/-- The mode-normalization step of `_xcrypt` (`'e'`/`'encrypt'` and
`'d'`/`'decrypt'` accepted, anything else a `BadValueError`). -/
def modeNormalize (mode : String) : Option String :=
  if mode = "e" ∨ mode = "encrypt" then some "encrypt"
  else if mode = "d" ∨ mode = "decrypt" then some "decrypt"
  else none

/-- The mode-dependent normalization of `_xcrypt`: encrypt filters and
pads; decrypt removes every literal `'J'` (`message.replace('J', '')`)
and fails (`BadValueError`) when the remaining length is odd. -/
def normalizeMessage (m : String) (message : String) : Option (List Char) :=
  if m = "encrypt" then some (encryptNormalize message.data)
  else
    let f := message.data.filter (fun c => c != 'J')
    if f.length % 2 ≠ 0 then none else some f

/-- The decrypt-only trailing-`'Z'` removal of `_xcrypt`; the
`processed_text[-1]` read is reached only when `remove_z` is set (the
`and` short-circuits) and raises `IndexError` on an empty accumulator. -/
def postProcess (m : String) (remove_z : Bool) (processed : List Char) : XResult :=
  if m = "decrypt" then
    if remove_z = true then
      match processed.getLast? with
      | none => XResult.err "string index out of range"
      | some lastc =>
        if lastc = 'Z' then XResult.ok (String.mk processed.dropLast)
        else XResult.ok (String.mk processed)
    else XResult.ok (String.mk processed)
  else XResult.ok (String.mk processed)

/-- `_xcrypt` from the source: mode normalization, key and message
validation, mode-dependent normalization, digraph split, table
construction, the digraph loop, and the decrypt-only post-processing. -/
def xcrypt (mode message k1 k2 : String) (omit_j remove_z : Bool) : XResult :=
  match modeNormalize mode with
  | none => XResult.fail
  | some m =>
    if validate_key k1 ∧ validate_key k2 then
      if validate_message message (if m = "encrypt" then "plain" else "cipher") then
        match normalizeMessage m message with
        | none => XResult.fail
        | some filtered =>
          match create_table k1, create_table k2 with
          | some t1, some t2 =>
            (match processDigraphs m omit_j t1 t2 (toDigraphs filtered) with
             | none => XResult.err "table mismatch"
             | some processed => postProcess m remove_z processed)
          | _, _ => XResult.err "invalid table"
      else XResult.fail
    else XResult.fail

/-- The public `encrypt` wrapper. -/
def encrypt (plaintext key1 key2 : String) : XResult :=
  xcrypt "encrypt" plaintext key1 key2 true true

/-- The public `decrypt` wrapper (the source defaults both flags to
`True`; callers here always pass them explicitly). -/
def decrypt (ciphertext key1 key2 : String) (omit_j remove_z : Bool) : XResult :=
  xcrypt "decrypt" ciphertext key1 key2 omit_j remove_z

/-- Decrypting the result of encrypting, as the round-trip property
composes the two public functions; a non-string result of `encrypt`
propagates (in the source, `decrypt(False, ...)` fails its message type
check and returns `False` as well). -/
def roundTrip (p k1 k2 : String) : XResult :=
  match encrypt p k1 k2 with
  | XResult.ok c => decrypt c k1 k2 false false
  | r => r

/-- Structural well-formedness of a built table: five rows of five
cells, no duplicate cells, and the cells are exactly the 25 merged
letter-identities. -/
def WellFormedTable (t : List (List String)) : Prop :=
  t.length = 5 ∧ (∀ row ∈ t, row.length = 5) ∧ t.flatten.Nodup ∧
    (∀ x, x ∈ t.flatten ↔ x ∈ alphabet25)

/-! ### Character-level bridge lemmas -/

lemma isUpperLetter_iff (c : Char) : isUpperLetter c = true ↔ c ∈ ascii_uppercase :=
  List.elem_iff

lemma az_char_facts :
    ∀ c ∈ ascii_uppercase,
      pyIsAscii c = true ∧ pyIsPrintable c = true ∧ pyIsSpace c = false ∧
      pyIsDigit c = false ∧ pyIsAlpha c = true ∧ Char.toUpper c = c ∧
      pyInPrintable c = true := by decide

lemma validate_ciphertext_of_upper (s : String) (hne : s.data ≠ [])
    (h : ∀ c ∈ s.data, c ∈ ascii_uppercase) : validate_ciphertext s = true := by
  have hall : s.data.all (fun c =>
      (pyIsAscii c && pyIsPrintable c) && !(pyIsSpace c) && !(pyIsDigit c)
        && isUpperLetter c) = true := by
    rw [List.all_eq_true]
    intro c hc
    obtain ⟨h1, h2, h3, h4, _, _, _⟩ := az_char_facts c (h c hc)
    have h5 : isUpperLetter c = true := (isUpperLetter_iff c).mpr (h c hc)
    simp [h1, h2, h3, h4, h5]
  have hany : s.data.any isUpperLetter = true := by
    rw [List.any_eq_true]
    obtain ⟨c, hc⟩ := List.exists_mem_of_ne_nil s.data hne
    exact ⟨c, hc, (isUpperLetter_iff c).mpr (h c hc)⟩
  have hlen : ¬ s.data.length = 0 := fun h0 => hne (List.length_eq_zero.mp h0)
  unfold validate_ciphertext
  rw [if_neg hlen, hall, hany]
  simp

/-! ### What a passing `validate_key` guarantees -/

lemma data_singleton (c : Char) : (String.singleton c).data = [c] := rfl

lemma keyLettersLoop_sound :
    ∀ (cs seen letters : List Char), keyLettersLoop cs seen = some letters →
      letters = seen ++ cs ∧ (∀ c ∈ cs, c ∈ ascii_uppercase) ∧
      (∀ c ∈ cs, c ∉ seen) ∧ cs.Nodup := by
  intro cs
  induction cs with
  | nil =>
    intro seen letters h
    simp only [keyLettersLoop, Option.some.injEq] at h
    subst h
    simp
  | cons c rest ih =>
    intro seen letters h
    simp only [keyLettersLoop] at h
    by_cases h1 : pyIsSpace c = true
    · rw [if_pos h1] at h; exact absurd h (by simp)
    rw [if_neg h1] at h
    by_cases h2 : pyIsDigit c = true
    · rw [if_pos h2] at h; exact absurd h (by simp)
    rw [if_neg h2] at h
    by_cases h3 : (!pyIsAlpha c) = true
    · rw [if_pos h3] at h; exact absurd h (by simp)
    rw [if_neg h3] at h
    by_cases h4 : c ∈ seen
    · rw [if_pos h4] at h; exact absurd h (by simp)
    rw [if_neg h4] at h
    by_cases h5 : isUpperLetter c = true
    · rw [if_pos h5] at h
      obtain ⟨heq, hAZ, hnotseen, hnd⟩ := ih (seen ++ [c]) letters h
      refine ⟨by simpa using heq, ?_, ?_, ?_⟩
      · intro c' hc'
        rcases List.mem_cons.mp hc' with rfl | hc'
        · exact (isUpperLetter_iff c').mp h5
        · exact hAZ c' hc'
      · intro c' hc'
        rcases List.mem_cons.mp hc' with rfl | hc'
        · exact h4
        · intro hcs
          exact (hnotseen c' hc') (by simp [hcs])
      · refine List.nodup_cons.mpr ⟨?_, hnd⟩
        intro hcrest
        exact (hnotseen c hcrest) (by simp)
    · rw [if_neg h5] at h; exact absurd h (by simp)

lemma validate_key_sound (key : String) (h : validate_key key = true) :
    key.data ≠ [] ∧
    (∀ c ∈ key.data.map Char.toUpper, c ∈ ascii_uppercase) ∧
    (key.data.map Char.toUpper).Nodup ∧
    ¬('I' ∈ key.data.map Char.toUpper ∧ 'J' ∈ key.data.map Char.toUpper) ∧
    (key.data.map Char.toUpper).length ≤ 25 := by
  simp only [validate_key] at h
  by_cases hlen : key.data.length < 1
  · rw [if_pos hlen] at h; exact absurd h (by simp)
  rw [if_neg hlen] at h
  have hne : key.data ≠ [] := by
    intro h0
    exact hlen (by simp [h0])
  revert h
  cases hloop : keyLettersLoop (key.data.map Char.toUpper) [] with
  | none => intro h; exact absurd h (by simp)
  | some letters =>
    intro h
    dsimp only at h
    obtain ⟨heq, hAZ, _, hnd⟩ :=
      keyLettersLoop_sound (key.data.map Char.toUpper) [] letters hloop
    simp only [List.nil_append] at heq
    subst heq
    by_cases hIJ : 'I' ∈ key.data.map Char.toUpper ∧ 'J' ∈ key.data.map Char.toUpper
    · rw [if_pos hIJ] at h; exact absurd h (by simp)
    rw [if_neg hIJ] at h
    by_cases hlen25 : (key.data.map Char.toUpper).length > 25
    · rw [if_pos hlen25] at h; exact absurd h (by simp)
    exact ⟨hne, hAZ, hnd, hIJ, by omega⟩

/-! ### The letter pool and the filled table -/

lemma letters_not_in_key_eq : letters_not_in_key = alphabet25 := by decide

lemma alphabet25_nodup : alphabet25.Nodup := by decide

lemma mergeIJ_mem_alphabet : ∀ c ∈ ascii_uppercase, mergeIJ c ∈ alphabet25 := by
  decide

lemma singleton_inj {x y : Char} (h : String.singleton x = String.singleton y) :
    x = y := by
  have h2 := congrArg String.data h
  rw [data_singleton, data_singleton] at h2
  exact List.singleton_injective h2

lemma singleton_ne_merged (x : Char) : String.singleton x ≠ "IJ" := by
  intro hcontra
  have h2 := congrArg String.data hcontra
  rw [data_singleton] at h2
  simp at h2

lemma mergeIJ_inj (k : List Char) (hIJ : ¬('I' ∈ k ∧ 'J' ∈ k)) :
    ∀ x ∈ k, ∀ y ∈ k, mergeIJ x = mergeIJ y → x = y := by
  intro x hx y hy hxy
  simp only [mergeIJ] at hxy
  by_cases hxi : x = 'I' ∨ x = 'J' <;> by_cases hyi : y = 'I' ∨ y = 'J'
  · rcases hxi with hxi | hxi <;> rcases hyi with hyi | hyi <;>
      subst hxi <;> subst hyi
    · rfl
    · exact absurd ⟨hx, hy⟩ hIJ
    · exact absurd ⟨hy, hx⟩ hIJ
    · rfl
  · rw [if_pos hxi, if_neg hyi] at hxy
    exact absurd hxy.symm (singleton_ne_merged y)
  · rw [if_neg hxi, if_pos hyi] at hxy
    exact absurd hxy (singleton_ne_merged x)
  · rw [if_neg hxi, if_neg hyi] at hxy
    exact singleton_inj hxy

lemma key_as_letters_nodup (k : List Char) (hnd : k.Nodup)
    (hIJ : ¬('I' ∈ k ∧ 'J' ∈ k)) : (key_as_letters k).Nodup :=
  List.Nodup.map_on (mergeIJ_inj k hIJ) hnd

lemma removeKeyLetters_sublist :
    ∀ (ks pool : List String), List.Sublist (removeKeyLetters ks pool) pool := by
  intro ks
  induction ks with
  | nil => intro pool; exact List.Sublist.refl pool
  | cons l rest ih =>
    intro pool
    simp only [removeKeyLetters]
    split
    · exact (ih (pool.erase l)).trans (List.erase_sublist l pool)
    · exact ih pool

lemma removeKeyLetters_nodup (ks pool : List String) (h : pool.Nodup) :
    (removeKeyLetters ks pool).Nodup :=
  List.Nodup.sublist (removeKeyLetters_sublist ks pool) h

lemma removeKeyLetters_mem :
    ∀ (ks pool : List String) (x : String), x ∈ pool → x ∉ ks →
      x ∈ removeKeyLetters ks pool := by
  intro ks
  induction ks with
  | nil => intro pool x hx _; exact hx
  | cons l rest ih =>
    intro pool x hx hnot
    have hxl : x ≠ l := fun h => hnot (by simp [h])
    have hxrest : x ∉ rest := fun h => hnot (by simp [h])
    simp only [removeKeyLetters]
    split
    · exact ih _ x ((List.mem_erase_of_ne hxl).mpr hx) hxrest
    · exact ih _ x hx hxrest

lemma removeKeyLetters_subset_of_not_mem :
    ∀ (ks pool : List String) (x : String), x ∉ pool →
      x ∉ removeKeyLetters ks pool := by
  intro ks pool x hx hmem
  exact hx ((removeKeyLetters_sublist ks pool).subset hmem)

lemma removeKeyLetters_not_mem :
    ∀ (ks pool : List String) (x : String), pool.Nodup → x ∈ ks →
      x ∉ removeKeyLetters ks pool := by
  intro ks
  induction ks with
  | nil => intro pool x _ hx; exact absurd hx (by simp)
  | cons l rest ih =>
    intro pool x hnd hx
    simp only [removeKeyLetters]
    rcases List.mem_cons.mp hx with rfl | hx
    · by_cases hxrest : x ∈ rest
      · split
        · exact ih _ x (hnd.erase x) hxrest
        · exact ih _ x hnd hxrest
      · by_cases hxpool : x ∈ pool
        · rw [if_pos hxpool]
          refine removeKeyLetters_subset_of_not_mem rest _ x ?_
          intro hcontra
          exact (hnd.mem_erase_iff.mp hcontra).1 rfl
        · rw [if_neg hxpool]
          exact removeKeyLetters_subset_of_not_mem rest _ x hxpool
    · split
      · exact ih _ x (hnd.erase l) hx
      · exact ih _ x hnd hx

lemma removeKeyLetters_length :
    ∀ (ks pool : List String), pool.Nodup → ks.Nodup → (∀ l ∈ ks, l ∈ pool) →
      (removeKeyLetters ks pool).length = pool.length - ks.length := by
  intro ks
  induction ks with
  | nil => intro pool _ _ _; simp [removeKeyLetters]
  | cons l rest ih =>
    intro pool hpool hks hsub
    have hl : l ∈ pool := hsub l (by simp)
    have hrestnd : rest.Nodup := (List.nodup_cons.mp hks).2
    have hlrest : l ∉ rest := (List.nodup_cons.mp hks).1
    simp only [removeKeyLetters, if_pos hl]
    have hrestsub : ∀ x ∈ rest, x ∈ pool.erase l := by
      intro x hx
      have hxl : x ≠ l := fun h => hlrest (h ▸ hx)
      exact (List.mem_erase_of_ne hxl).mpr (hsub x (by simp [hx]))
    rw [ih (pool.erase l) (hpool.erase l) hrestnd hrestsub,
        List.length_erase_of_mem hl]
    simp only [List.length_cons]
    omega

lemma fillRows_length (n : Nat) (l : List String) : (fillRows n l).length = n := by
  induction n generalizing l with
  | zero => rfl
  | succ n ih => simp [fillRows, ih]

lemma fillRows_flatten :
    ∀ (n : Nat) (l : List String), (fillRows n l).flatten = l.take (5 * n) := by
  intro n
  induction n with
  | zero => intro l; simp [fillRows]
  | succ n ih =>
    intro l
    have h5 : 5 * (n + 1) = 5 + 5 * n := by ring
    simp only [fillRows, List.flatten_cons, ih, h5, List.take_add]

lemma fillRows_row_length :
    ∀ (n : Nat) (l : List String), 5 * n ≤ l.length →
      ∀ row ∈ fillRows n l, row.length = 5 := by
  intro n
  induction n with
  | zero => intro l _ row hrow; exact absurd hrow (by simp [fillRows])
  | succ n ih =>
    intro l hlen row hrow
    simp only [fillRows, List.mem_cons] at hrow
    rcases hrow with hrow | hrow
    · subst hrow
      simp only [List.length_take]
      omega
    · exact ih (l.drop 5) (by simp; omega) row hrow

lemma tableLetters_spec (key : String) (h : validate_key key = true) :
    (tableLetters (key.data.map Char.toUpper)).length = 25 ∧
    (tableLetters (key.data.map Char.toUpper)).Nodup ∧
    (∀ x, x ∈ tableLetters (key.data.map Char.toUpper) ↔ x ∈ alphabet25) := by
  obtain ⟨_, hAZ, hnd, hIJ, hlen⟩ := validate_key_sound key h
  set k := key.data.map Char.toUpper with hk
  have ha25 : alphabet25.length = 25 := by decide
  have hklnd : (key_as_letters k).Nodup := key_as_letters_nodup k hnd hIJ
  have hklsub : ∀ x ∈ key_as_letters k, x ∈ alphabet25 := by
    intro x hx
    obtain ⟨c, hc, hcx⟩ := List.mem_map.mp hx
    exact hcx ▸ mergeIJ_mem_alphabet c (hAZ c hc)
  have hkllen : (key_as_letters k).length = k.length := List.length_map k mergeIJ
  have hpoolnd : (removeKeyLetters (key_as_letters k) letters_not_in_key).Nodup := by
    rw [letters_not_in_key_eq]
    exact removeKeyLetters_nodup _ _ alphabet25_nodup
  have hpoollen :
      (removeKeyLetters (key_as_letters k) letters_not_in_key).length =
        25 - (key_as_letters k).length := by
    rw [letters_not_in_key_eq,
      removeKeyLetters_length _ _ alphabet25_nodup hklnd hklsub, ha25]
  refine ⟨?_, ?_, ?_⟩
  · simp only [tableLetters, List.length_append]
    rw [hpoollen, hkllen]
    omega
  · simp only [tableLetters]
    rw [List.nodup_append]
    refine ⟨hklnd, hpoolnd, ?_⟩
    intro x hx
    rw [letters_not_in_key_eq]
    exact removeKeyLetters_not_mem _ _ x alphabet25_nodup hx
  · intro x
    constructor
    · intro hx
      rcases List.mem_append.mp hx with hx | hx
      · exact hklsub x hx
      · rw [letters_not_in_key_eq] at hx
        exact (removeKeyLetters_sublist _ _).subset hx
    · intro hx
      simp only [tableLetters]
      rw [List.mem_append]
      by_cases hxk : x ∈ key_as_letters k
      · exact Or.inl hxk
      · refine Or.inr ?_
        rw [letters_not_in_key_eq]
        exact removeKeyLetters_mem _ _ x hx hxk

lemma create_table_wf (key : String) (h : validate_key key = true) :
    create_table key = some (fillRows 5 (tableLetters (key.data.map Char.toUpper))) ∧
    WellFormedTable (fillRows 5 (tableLetters (key.data.map Char.toUpper))) ∧
    (fillRows 5 (tableLetters (key.data.map Char.toUpper))).flatten =
      tableLetters (key.data.map Char.toUpper) := by
  obtain ⟨hlen, hnd, hmem⟩ := tableLetters_spec key h
  have hjoin : (fillRows 5 (tableLetters (key.data.map Char.toUpper))).flatten =
      tableLetters (key.data.map Char.toUpper) := by
    rw [fillRows_flatten]
    have h55 : (5 * 5 : Nat) = 25 := by norm_num
    rw [h55, ← hlen, List.take_length]
  refine ⟨by simp [create_table, h], ⟨fillRows_length 5 _, ?_, ?_, ?_⟩, hjoin⟩
  · exact fillRows_row_length 5 _ (by omega)
  · rw [hjoin]; exact hnd
  · intro x; rw [hjoin]; exact hmem x

/-! ### Coordinate lookup -/

lemma findInRow_eq_none (l : String) :
    ∀ row : List String, l ∉ row → findInRow l row = none := by
  intro row
  induction row with
  | nil => intro _; rfl
  | cons x rest ih =>
    intro hl
    have hxl : ¬ x = l := fun h => hl (by simp [h])
    simp only [findInRow, if_neg hxl, ih (fun h => hl (by simp [h]))]
    rfl

lemma findInRow_of_getD (l : String) :
    ∀ (row : List String) (j : Nat), row.Nodup → j < row.length →
      row.getD j "" = l → findInRow l row = some j := by
  intro row
  induction row with
  | nil => intro j _ hj _; exact absurd hj (by simp)
  | cons x rest ih =>
    intro j hnd hj hcell
    cases j with
    | zero =>
      simp only [List.getD_cons_zero] at hcell
      simp [findInRow, hcell]
    | succ j =>
      simp only [List.getD_cons_succ] at hcell
      have hjlen : j < rest.length := by
        simpa using Nat.lt_of_succ_lt_succ hj
      have hlrest : l ∈ rest := by
        have := List.getD_eq_getElem rest "" hjlen
        rw [hcell] at this
        exact this ▸ List.getElem_mem hjlen
      have hxl : ¬ x = l := by
        intro h
        exact (List.nodup_cons.mp hnd).1 (h ▸ hlrest)
      simp only [findInRow, if_neg hxl,
        ih j (List.nodup_cons.mp hnd).2 hjlen hcell]
      rfl

lemma findInRow_mem (l : String) :
    ∀ row : List String, l ∈ row →
      ∃ j, findInRow l row = some j ∧ j < row.length ∧ row.getD j "" = l := by
  intro row
  induction row with
  | nil => intro h; exact absurd h (by simp)
  | cons x rest ih =>
    intro hl
    by_cases hxl : x = l
    · exact ⟨0, by simp [findInRow, hxl], by simp, by simp [hxl]⟩
    · have hlrest : l ∈ rest := by
        rcases List.mem_cons.mp hl with h | h
        · exact absurd h.symm hxl
        · exact h
      obtain ⟨j, hfind, hj, hcell⟩ := ih hlrest
      exact ⟨j + 1, by simp [findInRow, if_neg hxl, hfind], by simp [hj],
        by simpa using hcell⟩

lemma findInRows_mem (l : String) :
    ∀ (rows : List (List String)) (n : Int), l ∈ rows.flatten →
      ∃ i j : Nat, i < rows.length ∧
        findInRows l rows n = (n + (i : Int), (j : Int)) ∧
        j < (rows.getD i []).length ∧ (rows.getD i []).getD j "" = l := by
  intro rows
  induction rows with
  | nil => intro n h; exact absurd h (by simp)
  | cons row rest ih =>
    intro n hl
    by_cases hrow : l ∈ row
    · obtain ⟨j, hfind, hj, hcell⟩ := findInRow_mem l row hrow
      exact ⟨0, j, by simp, by simp [findInRows, hfind], by simpa using hj,
        by simpa using hcell⟩
    · have hrest : l ∈ rest.flatten := by
        rw [List.flatten_cons, List.mem_append] at hl
        exact hl.resolve_left hrow
      obtain ⟨i, j, hi, hfind, hj, hcell⟩ := ih (n + 1) hrest
      refine ⟨i + 1, j, by simpa using hi, ?_, by simpa using hj,
        by simpa using hcell⟩
      simp only [findInRows, findInRow_eq_none l row hrow, hfind]
      congr 1
      omega

lemma findInRows_unique (l : String) :
    ∀ (rows : List (List String)) (n : Int) (i j : Nat),
      rows.flatten.Nodup → i < rows.length → j < (rows.getD i []).length →
      (rows.getD i []).getD j "" = l →
      findInRows l rows n = (n + (i : Int), (j : Int)) := by
  intro rows
  induction rows with
  | nil => intro n i j _ hi _ _; exact absurd hi (by simp)
  | cons row rest ih =>
    intro n i j hnd hi hj hcell
    have hndapp := List.nodup_append.mp (by simpa using hnd)
    cases i with
    | zero =>
      simp only [List.getD_cons_zero] at hj hcell
      simp [findInRows, findInRow_of_getD l row j hndapp.1 hj hcell]
    | succ i =>
      simp only [List.getD_cons_succ] at hj hcell
      have hirest : i < rest.length := by simpa using Nat.lt_of_succ_lt_succ hi
      have hlrest : l ∈ rest.flatten := by
        have hrowmem : rest.getD i [] ∈ rest := by
          have := List.getD_eq_getElem rest [] hirest
          exact this ▸ List.getElem_mem hirest
        have hlmem : l ∈ rest.getD i [] := by
          have := List.getD_eq_getElem (rest.getD i []) "" hj
          rw [hcell] at this
          exact this ▸ List.getElem_mem hj
        exact List.mem_flatten.mpr ⟨rest.getD i [], hrowmem, hlmem⟩
      have hlrow : l ∉ row := fun hcontra => hndapp.2.2 hcontra hlrest
      simp only [findInRows, findInRow_eq_none l row hlrow,
        ih (n + 1) i j hndapp.2.1 hirest hj hcell]
      congr 1
      omega

lemma singleton_eq_I_iff (c : Char) : String.singleton c = "I" ↔ c = 'I' := by
  constructor
  · intro h
    have h2 := congrArg String.data h
    rw [data_singleton] at h2
    simpa using h2
  · intro h; subst h; rfl

lemma singleton_eq_J_iff (c : Char) : String.singleton c = "J" ↔ c = 'J' := by
  constructor
  · intro h
    have h2 := congrArg String.data h
    rw [data_singleton] at h2
    simpa using h2
  · intro h; subst h; rfl

lemma get_coordinates_singleton (t : List (List String)) (c : Char) :
    get_coordinates t (String.singleton c) = findInRows (mergeIJ c) t 0 := by
  simp only [get_coordinates, mergeIJ, singleton_eq_I_iff, singleton_eq_J_iff]

lemma row_length_of_wf (t : List (List String)) (wf : WellFormedTable t)
    (i : Nat) (hi : i < 5) : (t.getD i []).length = 5 := by
  obtain ⟨h5, hrow, _, _⟩ := wf
  have hit : i < t.length := by omega
  have hmem : t.getD i [] ∈ t := by
    have := List.getD_eq_getElem t [] hit
    exact this ▸ List.getElem_mem hit
  exact hrow _ hmem

lemma wf_coordinates_mem (t : List (List String)) (wf : WellFormedTable t)
    (c : Char) (hc : c ∈ ascii_uppercase) :
    ∃ i j : Nat, i < 5 ∧ j < 5 ∧
      get_coordinates t (String.singleton c) = ((i : Int), (j : Int)) ∧
      (t.getD i []).getD j "" = mergeIJ c := by
  obtain ⟨h5, hrow, hnd, hmem⟩ := wf
  have hm : mergeIJ c ∈ t.flatten := (hmem _).mpr (mergeIJ_mem_alphabet c hc)
  obtain ⟨i, j, hi, hfind, hj, hcell⟩ := findInRows_mem (mergeIJ c) t 0 hm
  have hi5 : i < 5 := h5 ▸ hi
  have hj5 : j < 5 := by
    rw [row_length_of_wf t ⟨h5, hrow, hnd, hmem⟩ i hi5] at hj
    exact hj
  refine ⟨i, j, hi5, hj5, ?_, hcell⟩
  rw [get_coordinates_singleton, hfind]
  simp

lemma wf_coordinates_unique (t : List (List String)) (wf : WellFormedTable t)
    (i j : Nat) (hi : i < 5) (hj : j < 5) (x : String)
    (hx : (t.getD i []).getD j "" = x) :
    findInRows x t 0 = ((i : Int), (j : Int)) := by
  obtain ⟨h5, hrow, hnd, hmem⟩ := wf
  have h := findInRows_unique x t 0 i j hnd (by omega)
    (by rw [row_length_of_wf t ⟨h5, hrow, hnd, hmem⟩ i hi]; exact hj) hx
  simpa using h

/-! ### Evaluating the `_xcrypt` pipeline -/

lemma validate_message_plain (m : String) :
    validate_message m "plain" = validate_plaintext m := by
  unfold validate_message
  rw [if_pos (Or.inl rfl)]

lemma validate_message_cipher (m : String) :
    validate_message m "cipher" = validate_ciphertext m := by
  unfold validate_message
  rw [if_neg (by decide : ¬(("cipher" : String) = "plain" ∨ ("cipher" : String) = "p")),
    if_pos (Or.inl rfl)]

lemma modeNormalize_encrypt : modeNormalize "encrypt" = some "encrypt" := rfl

lemma modeNormalize_decrypt : modeNormalize "decrypt" = some "decrypt" := rfl

lemma vm_encrypt_branch (s : String) (h : validate_plaintext s = true) :
    validate_message s (if True then "plain" else "cipher") = true := by
  rw [show (if True then ("plain" : String) else "cipher") = "plain" from rfl,
    validate_message_plain]
  exact h

lemma vm_decrypt_branch (s : String) (h : validate_ciphertext s = true) :
    validate_message s
      (if ("decrypt" : String) = "encrypt" then "plain" else "cipher") = true := by
  rw [show (if ("decrypt" : String) = "encrypt" then "plain" else "cipher") =
    "cipher" from rfl, validate_message_cipher]
  exact h

lemma normalizeMessage_encrypt (s : String) :
    normalizeMessage "encrypt" s = some (encryptNormalize s.data) := by
  unfold normalizeMessage
  rw [if_pos rfl]

lemma normalizeMessage_decrypt_even (s : String)
    (heven : (s.data.filter (fun c => c != 'J')).length % 2 = 0) :
    normalizeMessage "decrypt" s = some (s.data.filter (fun c => c != 'J')) := by
  unfold normalizeMessage
  rw [if_neg (by decide : ¬("decrypt" : String) = "encrypt")]
  dsimp only
  exact if_neg (fun hodd => hodd heven)

lemma normalizeMessage_decrypt_odd (s : String)
    (hodd : (s.data.filter (fun c => c != 'J')).length % 2 = 1) :
    normalizeMessage "decrypt" s = none := by
  unfold normalizeMessage
  rw [if_neg (by decide : ¬("decrypt" : String) = "encrypt")]
  dsimp only
  exact if_pos (by omega)

lemma postProcess_encrypt (rz : Bool) (out : List Char) :
    postProcess "encrypt" rz out = XResult.ok (String.mk out) := rfl

lemma postProcess_ne_fail (m : String) (rz : Bool) (out : List Char) :
    postProcess m rz out ≠ XResult.fail := by
  unfold postProcess
  repeat' split
  all_goals exact fun h => XResult.noConfusion h

lemma xcrypt_encrypt_eq (p k1 k2 : String) (oj rz : Bool)
    (hk1 : validate_key k1 = true) (hk2 : validate_key k2 = true)
    (hvp : validate_plaintext p = true)
    (t1 t2 : List (List String))
    (ht1 : create_table k1 = some t1) (ht2 : create_table k2 = some t2)
    (out : List Char)
    (hout : processDigraphs "encrypt" oj t1 t2
      (toDigraphs (encryptNormalize p.data)) = some out) :
    xcrypt "encrypt" p k1 k2 oj rz = XResult.ok (String.mk out) := by
  simp only [xcrypt, modeNormalize_encrypt]
  rw [if_pos ⟨hk1, hk2⟩, if_pos (vm_encrypt_branch p hvp)]
  simp only [normalizeMessage_encrypt, ht1, ht2, hout, postProcess_encrypt]

lemma xcrypt_decrypt_eq (s k1 k2 : String) (oj rz : Bool)
    (hk1 : validate_key k1 = true) (hk2 : validate_key k2 = true)
    (hvc : validate_ciphertext s = true)
    (t1 t2 : List (List String))
    (ht1 : create_table k1 = some t1) (ht2 : create_table k2 = some t2)
    (heven : (s.data.filter (fun c => c != 'J')).length % 2 = 0)
    (out : List Char)
    (hout : processDigraphs "decrypt" oj t1 t2
      (toDigraphs (s.data.filter (fun c => c != 'J'))) = some out) :
    xcrypt "decrypt" s k1 k2 oj rz = postProcess "decrypt" rz out := by
  simp only [xcrypt, modeNormalize_decrypt]
  rw [if_pos ⟨hk1, hk2⟩, if_pos (vm_decrypt_branch s hvc)]
  simp only [normalizeMessage_decrypt_even s heven, ht1, ht2, hout]

lemma xcrypt_decrypt_mismatch (s k1 k2 : String) (oj rz : Bool)
    (hk1 : validate_key k1 = true) (hk2 : validate_key k2 = true)
    (hvc : validate_ciphertext s = true)
    (t1 t2 : List (List String))
    (ht1 : create_table k1 = some t1) (ht2 : create_table k2 = some t2)
    (heven : (s.data.filter (fun c => c != 'J')).length % 2 = 0)
    (hout : processDigraphs "decrypt" oj t1 t2
      (toDigraphs (s.data.filter (fun c => c != 'J'))) = none) :
    xcrypt "decrypt" s k1 k2 oj rz = XResult.err "table mismatch" := by
  simp only [xcrypt, modeNormalize_decrypt]
  rw [if_pos ⟨hk1, hk2⟩, if_pos (vm_decrypt_branch s hvc)]
  simp only [normalizeMessage_decrypt_even s heven, ht1, ht2, hout]

lemma xcrypt_decrypt_fail_of_odd (s k1 k2 : String) (oj rz : Bool)
    (hk1 : validate_key k1 = true) (hk2 : validate_key k2 = true)
    (hvc : validate_ciphertext s = true)
    (hodd : (s.data.filter (fun c => c != 'J')).length % 2 = 1) :
    xcrypt "decrypt" s k1 k2 oj rz = XResult.fail := by
  simp only [xcrypt, modeNormalize_decrypt]
  rw [if_pos ⟨hk1, hk2⟩, if_pos (vm_decrypt_branch s hvc)]
  simp only [normalizeMessage_decrypt_odd s hodd]

lemma xcrypt_decrypt_ne_fail (s k1 k2 : String) (oj rz : Bool)
    (hk1 : validate_key k1 = true) (hk2 : validate_key k2 = true)
    (hvc : validate_ciphertext s = true)
    (heven : (s.data.filter (fun c => c != 'J')).length % 2 = 0) :
    xcrypt "decrypt" s k1 k2 oj rz ≠ XResult.fail := by
  obtain ⟨ht1, -, -⟩ := create_table_wf k1 hk1
  obtain ⟨ht2, -, -⟩ := create_table_wf k2 hk2
  cases hpd : processDigraphs "decrypt" oj
      (fillRows 5 (tableLetters (k1.data.map Char.toUpper)))
      (fillRows 5 (tableLetters (k2.data.map Char.toUpper)))
      (toDigraphs (s.data.filter (fun c => c != 'J'))) with
  | none =>
    rw [xcrypt_decrypt_mismatch s k1 k2 oj rz hk1 hk2 hvc _ _ ht1 ht2 heven hpd]
    exact fun h => XResult.noConfusion h
  | some out =>
    rw [xcrypt_decrypt_eq s k1 k2 oj rz hk1 hk2 hvc _ _ ht1 ht2 heven out hpd]
    exact postProcess_ne_fail _ _ _

/-! ### The substitution step through known coordinates -/

lemma substituteDigraph_eval (t1 t2 : List (List String)) (a b : Char)
    (i1 j1 i2 j2 : Nat)
    (h1 : get_coordinates t1 (String.singleton a) = ((i1 : Int), (j1 : Int)))
    (h2 : get_coordinates t2 (String.singleton b) = ((i2 : Int), (j2 : Int))) :
    substituteDigraph t1 t2 a b =
      if j1 ≠ j2 then
        some ((t1.getD i1 []).getD j2 "", (t2.getD i2 []).getD j1 "")
      else some (String.singleton a, String.singleton b) := by
  simp only [substituteDigraph, h1, h2]
  have h0 : (0 : Int) ≤ min (min ((i1 : Int)) ((i2 : Int)))
      (min ((j1 : Int)) ((j2 : Int))) :=
    le_min (le_min (Int.natCast_nonneg i1) (Int.natCast_nonneg i2))
      (le_min (Int.natCast_nonneg j1) (Int.natCast_nonneg j2))
  rw [if_neg (not_lt.mpr h0)]
  by_cases hj : j1 = j2
  · subst hj
    rw [if_neg (by simp), if_neg (by simp)]
  · rw [if_pos (by exact_mod_cast hj), if_pos hj]
    simp [cellAt]

/-! ### Concrete claim computations -/

/-- C5: with keys "python" and "algo", decrypting "BHATOKTEDZ" with
`omit_j = True` and `remove_z = True` returns "DECRYPTED", and with
`remove_z = False` returns "DECRYPTEDZ". -/
theorem decrypt_scenario_python_algo :
    decrypt "BHATOKTEDZ" "python" "algo" true true = XResult.ok "DECRYPTED" ∧
    decrypt "BHATOKTEDZ" "python" "algo" true false = XResult.ok "DECRYPTEDZ" := by
  decide

/-- C8 counterexample: `validate_key "hello"` returns `False`, because
"hello" contains the letter `l` twice and the duplicate-letter check
rejects it; the claim asserts it returns `True`. -/
theorem validate_key_hello_false : validate_key "hello" = false := by decide

/-- C8 amended: `validate_key` returns `False` for the empty string, for
`"A" * 26`, for "AABC", for "IJ", and also for "hello" (duplicate `l`);
keys are validated case-insensitively, so a lowercase duplicate-free key
such as "world" returns `True`. -/
theorem validate_key_boundary :
    validate_key "" = false ∧
    validate_key "AAAAAAAAAAAAAAAAAAAAAAAAAA" = false ∧
    validate_key "AABC" = false ∧
    validate_key "IJ" = false ∧
    validate_key "hello" = false ∧
    validate_key "world" = true := by decide

/-- C10: encrypting "EO" with keys "python" and "algo" returns the
ciphertext "IJA", which begins with the two-character merged cell "IJ"
emitted for the single substituted letter `E`, contains `'J'`, and has
odd length 3, exceeding the two filtered plaintext letters. -/
theorem encrypt_emits_merged_ij :
    encrypt "EO" "python" "algo" = XResult.ok "IJA" ∧
    "IJA".data.take 2 = ['I', 'J'] ∧
    'J' ∈ "IJA".data ∧
    (encryptNormalize "EO".data).length = 2 ∧
    "IJA".data.length = 3 ∧ "IJA".data.length % 2 = 1 := by decide

/-- C1 counterexample: the empty string consists (vacuously) solely of
uppercase letters, has even length and no `I`/`J`, and "PYTHON"/"ALGO"
are accepted keys, yet decrypting the result of encrypting it does not
return it: `encrypt` rejects the empty plaintext and yields the failure
value, which propagates. -/
theorem roundTrip_empty_fails : roundTrip "" "PYTHON" "ALGO" ≠ XResult.ok "" := by
  decide

/-- C9: a ciphertext consisting only of `'J'` characters passes
ciphertext validation, becomes the empty (even-length) letter sequence
after J-removal, and with `remove_z` set the trailing-`'Z'` check then
indexes into the empty accumulator, so `decrypt` raises `IndexError`
instead of returning a string or the failure value. -/
theorem decrypt_all_j_raises (s k1 k2 : String) (omit_j : Bool)
    (hs : s.data ≠ []) (hj : ∀ c ∈ s.data, c = 'J')
    (h1 : validate_key k1 = true) (h2 : validate_key k2 = true) :
    decrypt s k1 k2 omit_j true = XResult.err "string index out of range" := by
  have hvc : validate_ciphertext s = true :=
    validate_ciphertext_of_upper s hs (fun c hc => by rw [hj c hc]; decide)
  have hfilter : s.data.filter (fun c => c != 'J') = [] := by
    rw [List.filter_eq_nil_iff]
    intro c hc
    simp [hj c hc]
  obtain ⟨ht1, -, -⟩ := create_table_wf k1 h1
  obtain ⟨ht2, -, -⟩ := create_table_wf k2 h2
  rw [decrypt, xcrypt_decrypt_eq s k1 k2 omit_j true h1 h2 hvc _ _ ht1 ht2
    (by rw [hfilter]; rfl) [] (by rw [hfilter]; rfl)]
  rfl

/-- C9 witness: decrypting the all-`'J'` ciphertext "J" with the valid
keys "python" and "algo" propagates the `IndexError`. -/
theorem decrypt_all_j_raises_witness :
    decrypt "J" "python" "algo" true true =
      XResult.err "string index out of range" :=
  decrypt_all_j_raises "J" "python" "algo" true (by decide) (by decide)
    (by decide) (by decide)

/-- C7: for a ciphertext accepted by ciphertext validation and valid
keys, decrypt removes every literal `'J'` and returns the failure value
exactly when the remaining length is odd; it never pads. -/
theorem decrypt_fails_iff_odd (s k1 k2 : String) (omit_j remove_z : Bool)
    (hvc : validate_ciphertext s = true)
    (h1 : validate_key k1 = true) (h2 : validate_key k2 = true) :
    decrypt s k1 k2 omit_j remove_z = XResult.fail ↔
      (s.data.filter (fun c => c != 'J')).length % 2 = 1 := by
  constructor
  · intro hfail
    by_contra hodd
    exact xcrypt_decrypt_ne_fail s k1 k2 omit_j remove_z h1 h2 hvc
      (by omega) hfail
  · intro hodd
    exact xcrypt_decrypt_fail_of_odd s k1 k2 omit_j remove_z h1 h2 hvc hodd

/-- C7 witness: "ABC" is a valid ciphertext of odd length (no `'J'` to
remove), and decrypting it with the valid keys "python" and "algo"
returns the failure value. -/
theorem decrypt_fails_iff_odd_witness :
    (decrypt "ABC" "python" "algo" true true = XResult.fail ↔
      ("ABC".data.filter (fun c => c != 'J')).length % 2 = 1) ∧
    decrypt "ABC" "python" "algo" true true = XResult.fail :=
  have h := decrypt_fails_iff_odd "ABC" "python" "algo" true true
    (by decide) (by decide) (by decide)
  ⟨h, h.mpr (by decide)⟩

/-- C3: for every key accepted by `validate_key`, `create_table` returns
a 5x5 table whose 25 cells are pairwise distinct and are exactly the
merged alphabet, filled row-major with the key's merged letter-identities
first in their original order, followed by the remaining alphabet
identities in standard (alphabet) order. -/
theorem create_table_spec (key : String) (h : validate_key key = true) :
    ∃ t, create_table key = some t ∧
      t.length = 5 ∧ (∀ row ∈ t, row.length = 5) ∧
      t.flatten.length = 25 ∧ t.flatten.Nodup ∧
      (∀ x, x ∈ t.flatten ↔ x ∈ alphabet25) ∧
      t.flatten = key_as_letters (key.data.map Char.toUpper) ++
        removeKeyLetters (key_as_letters (key.data.map Char.toUpper))
          letters_not_in_key ∧
      List.Sublist
        (removeKeyLetters (key_as_letters (key.data.map Char.toUpper))
          letters_not_in_key) alphabet25 := by
  obtain ⟨hct, ⟨h5, hrow, hnd, hmem⟩, hflat⟩ := create_table_wf key h
  obtain ⟨hlen, -, -⟩ := tableLetters_spec key h
  refine ⟨_, hct, h5, hrow, ?_, hnd, hmem, ?_, ?_⟩
  · rw [hflat]; exact hlen
  · rw [hflat]; rfl
  · have hsub := removeKeyLetters_sublist
      (key_as_letters (key.data.map Char.toUpper)) letters_not_in_key
    rwa [letters_not_in_key_eq] at hsub

/-- C3 witness: the table built from the valid key "python". -/
theorem create_table_spec_witness :
    ∃ t, create_table "python" = some t ∧
      t.length = 5 ∧ (∀ row ∈ t, row.length = 5) ∧
      t.flatten.length = 25 ∧ t.flatten.Nodup ∧
      (∀ x, x ∈ t.flatten ↔ x ∈ alphabet25) ∧
      t.flatten = key_as_letters ("python".data.map Char.toUpper) ++
        removeKeyLetters (key_as_letters ("python".data.map Char.toUpper))
          letters_not_in_key ∧
      List.Sublist
        (removeKeyLetters (key_as_letters ("python".data.map Char.toUpper))
          letters_not_in_key) alphabet25 :=
  create_table_spec "python" (by decide)

/-- C4: for tables built from validated keys and letters drawn from
A–Z, `_get_coordinates` returns in-range coordinates (never the
`(-1, -1)` sentinel), so the table-mismatch error branch of `_xcrypt`
cannot fire. -/
theorem coordinates_always_found (k1 k2 : String) (a b : Char)
    (h1 : validate_key k1 = true) (h2 : validate_key k2 = true)
    (ha : a ∈ ascii_uppercase) (hb : b ∈ ascii_uppercase) :
    ∃ t1 t2, create_table k1 = some t1 ∧ create_table k2 = some t2 ∧
      0 ≤ (get_coordinates t1 (String.singleton a)).1 ∧
      (get_coordinates t1 (String.singleton a)).1 ≤ 4 ∧
      0 ≤ (get_coordinates t1 (String.singleton a)).2 ∧
      (get_coordinates t1 (String.singleton a)).2 ≤ 4 ∧
      0 ≤ (get_coordinates t2 (String.singleton b)).1 ∧
      (get_coordinates t2 (String.singleton b)).1 ≤ 4 ∧
      0 ≤ (get_coordinates t2 (String.singleton b)).2 ∧
      (get_coordinates t2 (String.singleton b)).2 ≤ 4 ∧
      substituteDigraph t1 t2 a b ≠ none := by
  obtain ⟨ht1, wf1, -⟩ := create_table_wf k1 h1
  obtain ⟨ht2, wf2, -⟩ := create_table_wf k2 h2
  obtain ⟨i1, j1, hi1, hj1, hg1, -⟩ := wf_coordinates_mem _ wf1 a ha
  obtain ⟨i2, j2, hi2, hj2, hg2, -⟩ := wf_coordinates_mem _ wf2 b hb
  refine ⟨_, _, ht1, ht2, ?_, ?_, ?_, ?_, ?_, ?_, ?_, ?_, ?_⟩
  · rw [hg1]; exact Int.natCast_nonneg i1
  · rw [hg1]; show (i1 : Int) ≤ 4; exact_mod_cast (by omega : i1 ≤ 4)
  · rw [hg1]; exact Int.natCast_nonneg j1
  · rw [hg1]; show (j1 : Int) ≤ 4; exact_mod_cast (by omega : j1 ≤ 4)
  · rw [hg2]; exact Int.natCast_nonneg i2
  · rw [hg2]; show (i2 : Int) ≤ 4; exact_mod_cast (by omega : i2 ≤ 4)
  · rw [hg2]; exact Int.natCast_nonneg j2
  · rw [hg2]; show (j2 : Int) ≤ 4; exact_mod_cast (by omega : j2 ≤ 4)
  · rw [substituteDigraph_eval _ _ a b i1 j1 i2 j2 hg1 hg2]
    split
    · exact fun h => Option.noConfusion h
    · exact fun h => Option.noConfusion h

/-- C4 witness: both coordinates of `'A'` and `'B'` in the tables built
from "python" and "algo" are in range and the digraph substitutes. -/
theorem coordinates_always_found_witness :
    ∃ t1 t2, create_table "python" = some t1 ∧ create_table "algo" = some t2 ∧
      0 ≤ (get_coordinates t1 (String.singleton 'A')).1 ∧
      (get_coordinates t1 (String.singleton 'A')).1 ≤ 4 ∧
      0 ≤ (get_coordinates t1 (String.singleton 'A')).2 ∧
      (get_coordinates t1 (String.singleton 'A')).2 ≤ 4 ∧
      0 ≤ (get_coordinates t2 (String.singleton 'B')).1 ∧
      (get_coordinates t2 (String.singleton 'B')).1 ≤ 4 ∧
      0 ≤ (get_coordinates t2 (String.singleton 'B')).2 ∧
      (get_coordinates t2 (String.singleton 'B')).2 ≤ 4 ∧
      substituteDigraph t1 t2 'A' 'B' ≠ none :=
  coordinates_always_found "python" "algo" 'A' 'B' (by decide) (by decide)
    (by decide) (by decide)

/-- C2: per-digraph transform rule. With `a` located at `(r1, c1)` in
the first table and `b` at `(r2, c2)` in the second: when the columns
differ, the outputs are `table1[r1][c2]` and `table2[r2][c1]` in that
order; when the columns agree the two input letters pass unchanged. -/
theorem tie_break_rule (t1 t2 : List (List String))
    (wf1 : WellFormedTable t1) (wf2 : WellFormedTable t2)
    (a b : Char) (r1 c1 r2 c2 : Nat)
    (hr1 : r1 < 5) (hc1 : c1 < 5) (hr2 : r2 < 5) (hc2 : c2 < 5)
    (ha : (t1.getD r1 []).getD c1 "" = mergeIJ a)
    (hb : (t2.getD r2 []).getD c2 "" = mergeIJ b) :
    substituteDigraph t1 t2 a b =
      if c1 ≠ c2 then
        some ((t1.getD r1 []).getD c2 "", (t2.getD r2 []).getD c1 "")
      else some (String.singleton a, String.singleton b) := by
  have hg1 : get_coordinates t1 (String.singleton a) = ((r1 : Int), (c1 : Int)) := by
    rw [get_coordinates_singleton]
    exact wf_coordinates_unique t1 wf1 r1 c1 hr1 hc1 _ ha
  have hg2 : get_coordinates t2 (String.singleton b) = ((r2 : Int), (c2 : Int)) := by
    rw [get_coordinates_singleton]
    exact wf_coordinates_unique t2 wf2 r2 c2 hr2 hc2 _ hb
  exact substituteDigraph_eval t1 t2 a b r1 c1 r2 c2 hg1 hg2

/-- C2 witness: in the tables for "python" and "algo", `B` sits at
`(1, 2)` and `H` at `(1, 4)`; the columns differ, and the digraph `BH`
becomes `DE`, the two swapped-column cells. -/
theorem tie_break_rule_witness :
    substituteDigraph (fillRows 5 (tableLetters ("python".data.map Char.toUpper)))
      (fillRows 5 (tableLetters ("algo".data.map Char.toUpper))) 'B' 'H' =
      some ("D", "E") := by
  rw [tie_break_rule _ _ (create_table_wf "python" (by decide)).2.1
    (create_table_wf "algo" (by decide)).2.1 'B' 'H' 1 2 1 4
    (by decide) (by decide) (by decide) (by decide) (by decide) (by decide)]
  decide

/-- The encrypt-mode filter loop keeps exactly the upper-case letters. -/
lemma keepUppercase_eq_filter :
    ∀ l : List Char, keepUppercase l = l.filter isUpperLetter := by
  intro l
  induction l with
  | nil => rfl
  | cons c rest ih =>
    by_cases h : isUpperLetter c = true <;>
      simp [keepUppercase, List.filter_cons, h, ih]

/-- C6: for a message accepted by plaintext validation and valid keys,
encrypt's normalization upper-cases the message, keeps exactly the
characters that are ASCII letters A–Z, and appends exactly one `'Z'` if
and only if the retained letter count is odd, so the sequence entering
the digraph split always has even length. -/
theorem encrypt_normalization (m k1 k2 : String)
    (hm : validate_plaintext m = true)
    (hk1 : validate_key k1 = true) (hk2 : validate_key k2 = true) :
    normalizeMessage "encrypt" m = some (encryptNormalize m.data) ∧
    (∀ c ∈ (m.data.map Char.toUpper).filter isUpperLetter, c ∈ ascii_uppercase) ∧
    encryptNormalize m.data =
      (m.data.map Char.toUpper).filter isUpperLetter ++
        (if ((m.data.map Char.toUpper).filter isUpperLetter).length % 2 = 1
         then ['Z'] else []) ∧
    (encryptNormalize m.data).length % 2 = 0 := by
  refine ⟨normalizeMessage_encrypt m, ?_, ?_, ?_⟩
  · intro c hc
    exact (isUpperLetter_iff c).mp (List.of_mem_filter hc)
  · unfold encryptNormalize
    rw [keepUppercase_eq_filter]
    by_cases h : ((m.data.map Char.toUpper).filter isUpperLetter).length % 2 = 1
    · rw [if_pos (by omega), if_pos h]
    · rw [if_neg (by omega), if_neg h, List.append_nil]
  · unfold encryptNormalize
    rw [keepUppercase_eq_filter]
    by_cases h : ((m.data.map Char.toUpper).filter isUpperLetter).length % 2 = 1
    · rw [if_pos (by omega), List.length_append]
      simp only [List.length_singleton]
      omega
    · rw [if_neg (by omega)]
      omega

/-- C6 witness: the spec's example `encrypt("CAT", "falcon", "osprey")`
retains three letters and pads with one `'Z'` to even length. -/
theorem encrypt_normalization_witness :
    normalizeMessage "encrypt" "CAT" = some (encryptNormalize "CAT".data) ∧
    (∀ c ∈ ("CAT".data.map Char.toUpper).filter isUpperLetter,
      c ∈ ascii_uppercase) ∧
    encryptNormalize "CAT".data =
      ("CAT".data.map Char.toUpper).filter isUpperLetter ++
        (if (("CAT".data.map Char.toUpper).filter isUpperLetter).length % 2 = 1
         then ['Z'] else []) ∧
    (encryptNormalize "CAT".data).length % 2 = 0 :=
  encrypt_normalization "CAT" "falcon" "osprey" (by decide) (by decide)
    (by decide)

/-! ### The encrypt/decrypt round trip -/

lemma mergeIJ_of_ne (a : Char) (h1 : a ≠ 'I') (h2 : a ≠ 'J') :
    mergeIJ a = String.singleton a := by
  rw [mergeIJ, if_neg]
  rintro (h | h)
  · exact h1 h
  · exact h2 h

lemma alphabet_rep :
    ∀ x ∈ alphabet25,
      x.data.filter (fun c => c != 'J') =
        [(x.data.filter (fun c => c != 'J')).headD 'A'] ∧
      mergeIJ ((x.data.filter (fun c => c != 'J')).headD 'A') = x ∧
      (∀ c ∈ x.data, c ∈ ascii_uppercase) := by decide

lemma wf_cell_mem (t : List (List String)) (wf : WellFormedTable t)
    (i j : Nat) (hi : i < 5) (hj : j < 5) :
    (t.getD i []).getD j "" ∈ t.flatten := by
  obtain ⟨h5, hrow, hnd, hmem⟩ := wf
  have hit : i < t.length := by omega
  have hrowmem : t.getD i [] ∈ t := by
    have := List.getD_eq_getElem t [] hit
    exact this ▸ List.getElem_mem hit
  have hjlen : j < (t.getD i []).length := by
    rw [row_length_of_wf t ⟨h5, hrow, hnd, hmem⟩ i hi]
    exact hj
  have hcellmem : (t.getD i []).getD j "" ∈ t.getD i [] := by
    have := List.getD_eq_getElem (t.getD i []) "" hjlen
    exact this ▸ List.getElem_mem hjlen
  exact List.mem_flatten.mpr ⟨_, hrowmem, hcellmem⟩

lemma filter_singleton_ne_J (a : Char) (h : a ≠ 'J') :
    (String.singleton a).data.filter (fun c => c != 'J') = [a] := by
  rw [data_singleton]
  simp [h]

lemma processDigraphs_cons (mode : String) (oj : Bool)
    (t1 t2 : List (List String)) (a b : Char) (rest : List (Char × Char))
    (p1 p2 : String) (out : List Char)
    (hsub : substituteDigraph t1 t2 a b = some (p1, p2))
    (hrest : processDigraphs mode oj t1 t2 rest = some out) :
    processDigraphs mode oj t1 t2 ((a, b) :: rest) =
      some ((if mode = "decrypt" ∧ oj = true ∧ p1 = "IJ" then "I" else p1).data ++
            (if mode = "decrypt" ∧ oj = true ∧ p2 = "IJ" then "I" else p2).data ++
            out) := by
  simp only [processDigraphs, hsub, hrest]

lemma processDigraphs_cons_encrypt (oj : Bool) (t1 t2 : List (List String))
    (a b : Char) (rest : List (Char × Char)) (p1 p2 : String) (out : List Char)
    (hsub : substituteDigraph t1 t2 a b = some (p1, p2))
    (hrest : processDigraphs "encrypt" oj t1 t2 rest = some out) :
    processDigraphs "encrypt" oj t1 t2 ((a, b) :: rest) =
      some (p1.data ++ p2.data ++ out) := by
  rw [processDigraphs_cons "encrypt" oj t1 t2 a b rest p1 p2 out hsub hrest,
    if_neg (fun h => (by decide : ¬("encrypt" : String) = "decrypt") h.1),
    if_neg (fun h => (by decide : ¬("encrypt" : String) = "decrypt") h.1)]

lemma processDigraphs_cons_noomit (t1 t2 : List (List String))
    (a b : Char) (rest : List (Char × Char)) (p1 p2 : String) (out : List Char)
    (hsub : substituteDigraph t1 t2 a b = some (p1, p2))
    (hrest : processDigraphs "decrypt" false t1 t2 rest = some out) :
    processDigraphs "decrypt" false t1 t2 ((a, b) :: rest) =
      some (p1.data ++ p2.data ++ out) := by
  rw [processDigraphs_cons "decrypt" false t1 t2 a b rest p1 p2 out hsub hrest,
    if_neg (fun h => Bool.false_ne_true h.2.1),
    if_neg (fun h => Bool.false_ne_true h.2.1)]

lemma substitute_roundtrip (t1 t2 : List (List String))
    (wf1 : WellFormedTable t1) (wf2 : WellFormedTable t2) (a b : Char)
    (ha : a ∈ ascii_uppercase) (hai : a ≠ 'I') (haj : a ≠ 'J')
    (hb : b ∈ ascii_uppercase) (hbi : b ≠ 'I') (hbj : b ≠ 'J') :
    ∃ (p1 p2 : String) (q1 q2 : Char),
      substituteDigraph t1 t2 a b = some (p1, p2) ∧
      (∀ c ∈ p1.data, c ∈ ascii_uppercase) ∧
      (∀ c ∈ p2.data, c ∈ ascii_uppercase) ∧
      p1.data.filter (fun c => c != 'J') = [q1] ∧
      p2.data.filter (fun c => c != 'J') = [q2] ∧
      substituteDigraph t1 t2 q1 q2 =
        some (String.singleton a, String.singleton b) := by
  obtain ⟨i1, j1, hi1, hj1, hg1, hcell1⟩ := wf_coordinates_mem t1 wf1 a ha
  obtain ⟨i2, j2, hi2, hj2, hg2, hcell2⟩ := wf_coordinates_mem t2 wf2 b hb
  rw [mergeIJ_of_ne a hai haj] at hcell1
  rw [mergeIJ_of_ne b hbi hbj] at hcell2
  by_cases hj : j1 = j2
  · have hsame : substituteDigraph t1 t2 a b =
        some (String.singleton a, String.singleton b) := by
      rw [substituteDigraph_eval t1 t2 a b i1 j1 i2 j2 hg1 hg2,
        if_neg (fun h => h hj)]
    refine ⟨String.singleton a, String.singleton b, a, b, hsame, ?_, ?_,
      filter_singleton_ne_J a haj, filter_singleton_ne_J b hbj, hsame⟩
    · intro c hc
      rw [data_singleton] at hc
      rcases List.mem_singleton.mp hc with rfl
      exact ha
    · intro c hc
      rw [data_singleton] at hc
      rcases List.mem_singleton.mp hc with rfl
      exact hb
  · have hsub1 : substituteDigraph t1 t2 a b =
        some ((t1.getD i1 []).getD j2 "", (t2.getD i2 []).getD j1 "") := by
      rw [substituteDigraph_eval t1 t2 a b i1 j1 i2 j2 hg1 hg2, if_pos hj]
    have hua : (t1.getD i1 []).getD j2 "" ∈ alphabet25 :=
      (wf1.2.2.2 _).mp (wf_cell_mem t1 wf1 i1 j2 hi1 hj2)
    have hva : (t2.getD i2 []).getD j1 "" ∈ alphabet25 :=
      (wf2.2.2.2 _).mp (wf_cell_mem t2 wf2 i2 j1 hi2 hj1)
    obtain ⟨hufilter, humerge, huchars⟩ := alphabet_rep _ hua
    obtain ⟨hvfilter, hvmerge, hvchars⟩ := alphabet_rep _ hva
    refine ⟨(t1.getD i1 []).getD j2 "", (t2.getD i2 []).getD j1 "",
      (((t1.getD i1 []).getD j2 "").data.filter (fun c => c != 'J')).headD 'A',
      (((t2.getD i2 []).getD j1 "").data.filter (fun c => c != 'J')).headD 'A',
      hsub1, huchars, hvchars, hufilter, hvfilter, ?_⟩
    have hgq1 : get_coordinates t1 (String.singleton
        ((((t1.getD i1 []).getD j2 "").data.filter (fun c => c != 'J')).headD 'A')) =
        ((i1 : Int), (j2 : Int)) := by
      rw [get_coordinates_singleton, humerge]
      exact wf_coordinates_unique t1 wf1 i1 j2 hi1 hj2 _ rfl
    have hgq2 : get_coordinates t2 (String.singleton
        ((((t2.getD i2 []).getD j1 "").data.filter (fun c => c != 'J')).headD 'A')) =
        ((i2 : Int), (j1 : Int)) := by
      rw [get_coordinates_singleton, hvmerge]
      exact wf_coordinates_unique t2 wf2 i2 j1 hi2 hj1 _ rfl
    rw [substituteDigraph_eval t1 t2 _ _ i1 j2 i2 j1 hgq1 hgq2,
      if_pos (fun h => hj h.symm), hcell1, hcell2]

lemma toDigraphs_flatten :
    ∀ l : List Char, l.length % 2 = 0 →
      ((toDigraphs l).map (fun q => [q.1, q.2])).flatten = l
  | [], _ => rfl
  | [a], h => by
    simp only [List.length_cons, List.length_nil] at h
    omega
  | a :: b :: rest, h => by
    have ih := toDigraphs_flatten rest (by
      simp only [List.length_cons] at h
      omega)
    simp [toDigraphs, ih]

lemma toDigraphs_mem :
    ∀ (l : List Char) (q : Char × Char), q ∈ toDigraphs l → q.1 ∈ l ∧ q.2 ∈ l
  | [], q, hq => by
    rw [show toDigraphs [] = [] from rfl] at hq
    exact absurd hq (by simp)
  | [a], q, hq => by
    rw [show toDigraphs [a] = [] from rfl] at hq
    exact absurd hq (by simp)
  | a :: b :: rest, q, hq => by
    rcases List.mem_cons.mp hq with rfl | hq
    · exact ⟨by simp, by simp⟩
    · obtain ⟨h1, h2⟩ := toDigraphs_mem rest q hq
      exact ⟨by simp [h1], by simp [h2]⟩

lemma process_roundtrip (t1 t2 : List (List String))
    (wf1 : WellFormedTable t1) (wf2 : WellFormedTable t2) :
    ∀ ds : List (Char × Char),
      (∀ q ∈ ds, q.1 ∈ ascii_uppercase ∧ q.1 ≠ 'I' ∧ q.1 ≠ 'J' ∧
        q.2 ∈ ascii_uppercase ∧ q.2 ≠ 'I' ∧ q.2 ≠ 'J') →
      ∃ s : List Char,
        processDigraphs "encrypt" true t1 t2 ds = some s ∧
        (∀ c ∈ s, c ∈ ascii_uppercase) ∧
        processDigraphs "decrypt" false t1 t2
          (toDigraphs (s.filter (fun c => c != 'J'))) =
          some ((ds.map (fun q => [q.1, q.2])).flatten) ∧
        (s.filter (fun c => c != 'J')).length = 2 * ds.length := by
  intro ds
  induction ds with
  | nil =>
    intro _
    exact ⟨[], rfl, by simp, rfl, by simp⟩
  | cons hd rest ih =>
    obtain ⟨a, b⟩ := hd
    intro hgood
    obtain ⟨ha, hai, haj, hb, hbi, hbj⟩ := hgood (a, b) (by simp)
    obtain ⟨s', hps', hupper', hdec', hlen'⟩ :=
      ih (fun q hq => hgood q (by simp [hq]))
    obtain ⟨p1, p2, q1, q2, hsub, hch1, hch2, hf1, hf2, hsubq⟩ :=
      substitute_roundtrip t1 t2 wf1 wf2 a b ha hai haj hb hbi hbj
    have hfilter : (p1.data ++ p2.data ++ s').filter (fun c => c != 'J') =
        q1 :: q2 :: s'.filter (fun c => c != 'J') := by
      rw [List.filter_append, List.filter_append, hf1, hf2]
      rfl
    refine ⟨p1.data ++ p2.data ++ s',
      processDigraphs_cons_encrypt true t1 t2 a b rest p1 p2 s' hsub hps',
      ?_, ?_, ?_⟩
    · intro c hc
      rcases List.mem_append.mp hc with hc | hc
      · rcases List.mem_append.mp hc with hc | hc
        · exact hch1 c hc
        · exact hch2 c hc
      · exact hupper' c hc
    · rw [hfilter,
        show toDigraphs (q1 :: q2 :: s'.filter (fun c => c != 'J')) =
          (q1, q2) :: toDigraphs (s'.filter (fun c => c != 'J')) from rfl,
        processDigraphs_cons_noomit t1 t2 q1 q2 _ (String.singleton a)
          (String.singleton b) _ hsubq hdec']
      simp [data_singleton]
    · rw [hfilter]
      simp only [List.length_cons, hlen']
      omega

lemma validate_plaintext_of_upper (p : String) (hne : p.data ≠ [])
    (h : ∀ c ∈ p.data, c ∈ ascii_uppercase) : validate_plaintext p = true := by
  obtain ⟨c0, hc0⟩ := List.exists_mem_of_ne_nil p.data hne
  obtain ⟨ha0, hpr0, hsp0, hdg0, hal0, -, hip0⟩ := az_char_facts c0 (h c0 hc0)
  have hlen : ¬ p.data.length = 0 := fun h0 => hne (List.length_eq_zero.mp h0)
  have hspace : p.data.all pyIsSpace = false := by
    rw [List.all_eq_false]
    exact ⟨c0, hc0, by simp [hsp0]⟩
  have hdigit : p.data.all pyIsDigit = false := by
    rw [List.all_eq_false]
    exact ⟨c0, hc0, by simp [hdg0]⟩
  have hascii : p.data.all pyIsAscii = true := by
    rw [List.all_eq_true]
    intro c hc
    exact (az_char_facts c (h c hc)).1
  have hprint : p.data.all pyInPrintable = true := by
    rw [List.all_eq_true]
    intro c hc
    exact (az_char_facts c (h c hc)).2.2.2.2.2.2
  have halpha : p.data.any pyIsAlpha = true := by
    rw [List.any_eq_true]
    exact ⟨c0, hc0, hal0⟩
  unfold validate_plaintext
  rw [if_neg hlen]
  simp [hspace, hdigit, hascii, hprint, halpha]

lemma encryptNormalize_id (p : List Char) (h : ∀ c ∈ p, c ∈ ascii_uppercase)
    (heven : p.length % 2 = 0) : encryptNormalize p = p := by
  have hupper : ∀ c ∈ p, Char.toUpper c = c := fun c hc =>
    (az_char_facts c (h c hc)).2.2.2.2.2.1
  have hmap : p.map Char.toUpper = p := by
    calc p.map Char.toUpper = p.map id := List.map_congr_left hupper
    _ = p := List.map_id p
  have hfilter : p.filter isUpperLetter = p :=
    List.filter_eq_self.mpr (fun c hc => (isUpperLetter_iff c).mpr (h c hc))
  unfold encryptNormalize
  rw [hmap, keepUppercase_eq_filter, hfilter, if_neg (by omega)]

/-- C1 counterexample note and amended statement: the round trip of C1,
proved for nonempty plaintexts (the empty string satisfies the claim's
conditions vacuously but is rejected by plaintext validation, so
`encrypt` returns the failure value on it). -/
theorem roundtrip_correct (p k1 k2 : String)
    (hne : p ≠ "")
    (hchars : ∀ c ∈ p.data, c ∈ ascii_uppercase ∧ c ≠ 'I' ∧ c ≠ 'J')
    (heven : p.data.length % 2 = 0)
    (hk1 : validate_key k1 = true) (hk2 : validate_key k2 = true) :
    roundTrip p k1 k2 = XResult.ok p := by
  have hdata : p.data ≠ [] := by
    intro h0
    apply hne
    cases p with
    | mk d =>
      simp only at h0
      rw [h0]
  obtain ⟨ht1, wf1, -⟩ := create_table_wf k1 hk1
  obtain ⟨ht2, wf2, -⟩ := create_table_wf k2 hk2
  have hup : ∀ c ∈ p.data, c ∈ ascii_uppercase := fun c hc => (hchars c hc).1
  have hgood : ∀ q ∈ toDigraphs p.data,
      q.1 ∈ ascii_uppercase ∧ q.1 ≠ 'I' ∧ q.1 ≠ 'J' ∧
      q.2 ∈ ascii_uppercase ∧ q.2 ≠ 'I' ∧ q.2 ≠ 'J' := by
    intro q hq
    obtain ⟨h1, h2⟩ := toDigraphs_mem p.data q hq
    obtain ⟨ha, hai, haj⟩ := hchars q.1 h1
    obtain ⟨hb, hbi, hbj⟩ := hchars q.2 h2
    exact ⟨ha, hai, haj, hb, hbi, hbj⟩
  obtain ⟨s, hps, hsupper, hdec, hslen⟩ :=
    process_roundtrip _ _ wf1 wf2 (toDigraphs p.data) hgood
  have hflat : ((toDigraphs p.data).map (fun q => [q.1, q.2])).flatten = p.data :=
    toDigraphs_flatten p.data heven
  have henc : encrypt p k1 k2 = XResult.ok (String.mk s) := by
    unfold encrypt
    refine xcrypt_encrypt_eq p k1 k2 true true hk1 hk2
      (validate_plaintext_of_upper p hdata hup) _ _ ht1 ht2 s ?_
    rw [encryptNormalize_id p.data hup heven]
    exact hps
  have hsne : s ≠ [] := by
    intro h0
    rw [h0] at hslen
    simp only [List.filter_nil, List.length_nil] at hslen
    have hds0 : (toDigraphs p.data).length = 0 := by omega
    rw [List.length_eq_zero.mp hds0] at hflat
    exact hdata hflat.symm
  have hvc : validate_ciphertext (String.mk s) = true :=
    validate_ciphertext_of_upper (String.mk s) hsne hsupper
  have heven' : ((String.mk s).data.filter (fun c => c != 'J')).length % 2 = 0 := by
    show (s.filter (fun c => c != 'J')).length % 2 = 0
    rw [hslen]
    omega
  have hdec' : processDigraphs "decrypt" false
      (fillRows 5 (tableLetters (k1.data.map Char.toUpper)))
      (fillRows 5 (tableLetters (k2.data.map Char.toUpper)))
      (toDigraphs ((String.mk s).data.filter (fun c => c != 'J'))) =
      some p.data := by
    show processDigraphs "decrypt" false _ _
      (toDigraphs (s.filter (fun c => c != 'J'))) = some p.data
    rw [hdec, hflat]
  have hxd := xcrypt_decrypt_eq (String.mk s) k1 k2 false false hk1 hk2 hvc
    _ _ ht1 ht2 heven' p.data hdec'
  unfold roundTrip
  rw [henc]
  show decrypt (String.mk s) k1 k2 false false = XResult.ok p
  rw [decrypt, hxd]
  rfl

/-- C1 amended witness: the spec's own example round trip,
`"HELLOWORLD"` with keys `"PYTHON"` and `"ALGORITHM"`. -/
theorem roundtrip_correct_witness :
    roundTrip "HELLOWORLD" "PYTHON" "ALGORITHM" = XResult.ok "HELLOWORLD" :=
  roundtrip_correct "HELLOWORLD" "PYTHON" "ALGORITHM" (by decide) (by decide)
    (by decide) (by decide) (by decide)

end Twosquare
